import Mathlib

/-!
Verification development for the SVina batch-docking driver
(`main.cpp`, modified from QuickVina 2).

The development shallow-embeds the parts of the program that the checked
properties are about:

* the annealed local refinement `refine_structure` (penalty-slope schedule,
  early exit on the within-box predicate, slope restoration, invalid-energy
  sentinel);
* the result-pool deduplication `remove_redundant` (its helper
  `add_to_output_container` lives in `coords.cpp`, which is not part of the
  sources, and is therefore modelled from the spec);
* the output-selection loop at the end of `do_search`;
* the cache-population dispatch of `main_procedure`;
* the MPI coordinator/worker farm of `main` (governor loop, sentinel drain,
  worker loop), including a faithful model of the C++ `std::getline` /
  `tellg` stream behaviour on a line-oriented job file;
* the fork-based bounded fan-out scheduler of `main`, as a trace of
  spawn/reap events of the parent process.

Opaque collaborators (scoring function, quasi-Newton minimizer, molecular
models, RMSD) are abstracted as parameters, as the program treats them.
-/

/-- Stand-in for the C++ `max_fl` (`std::numeric_limits<fl>::max()`):
a fixed distinguished constant used as the invalid-energy sentinel. -/
def max_fl : ℚ := 10 ^ 308

/-- Modelled from the spec: `not_max` (defined in `common.h`, which is not
part of the sources). The spec describes the corresponding check as
"a pose's energy equals the invalid sentinel", so `not_max e` holds exactly
when `e` is not the sentinel. -/
def not_max (x : ℚ) : Bool := decide (¬ x = max_fl)

/-- The C++ `output_type`: a conformation `c`, an energy `e`, and derived
heavy-atom coordinates `coords`. The conformation and coordinate types are
opaque parameters. -/
structure OutputType (C K : Type) where
  c : C
  e : ℚ
  coords : K
deriving DecidableEq

/-- The mutable part of the C++ `non_cache` evaluator that `refine_structure`
touches: the penalty slope, plus the (pure, never reassigned) within-box
predicate `within`. -/
structure NonCache (M : Type) where
  slope : ℚ
  within : M → Bool

/-- The opaque collaborators used by `refine_structure`: the bounded-step
quasi-Newton minimizer (which reads the evaluator, in particular its slope,
and returns an updated model and output), `model::set`, and
`model::get_heavy_atom_movable_coords`. -/
structure RefineEnv (M C K : Type) where
  quasi_newton : NonCache M → M → OutputType C K → M × OutputType C K
  set : M → C → M
  get_heavy_atom_movable_coords : M → K

/-- The state threaded through the annealing loop of `refine_structure`:
the model `m`, the output `out`, and the `non_cache` evaluator `nc`. -/
structure LState (M C K : Type) where
  m : M
  out : OutputType C K
  nc : NonCache M

/-- The slope used at annealing attempt `p`:
`100 * std::pow(10.0, 2.0*p)`. -/
def slope_schedule (p : Nat) : ℚ := 100 * 10 ^ (2 * p)

/-- One iteration of the annealing loop of `refine_structure`:
set `nc.slope` to the scheduled value, run the minimizer, and set the model
to the minimizer's conformation (`m.set(out.c)`). -/
def attempt {M C K : Type} (env : RefineEnv M C K) (p : Nat) (s : LState M C K) :
    LState M C K :=
  let nc1 : NonCache M := { s.nc with slope := slope_schedule p }
  let r := env.quasi_newton nc1 s.m s.out
  let m2 := env.set r.1 r.2.c
  ⟨m2, r.2, nc1⟩

/-- The annealing loop of `refine_structure` (`VINA_FOR(p, 5)` with an early
`break` when `nc.within(m)` holds), written with explicit fuel; the program
runs it with `p = 0` and fuel `5`. -/
def refine_loop {M C K : Type} (env : RefineEnv M C K) :
    Nat → Nat → LState M C K → LState M C K
  | _, 0, s => s
  | p, fuel + 1, s =>
    let s1 := attempt env p s
    if s1.nc.within s1.m then s1 else refine_loop env (p + 1) fuel s1

/-- Specification-side description of the annealing loop: run exactly `k`
consecutive attempts starting at attempt index `p`, with no early exit. -/
def runAttempts {M C K : Type} (env : RefineEnv M C K) :
    Nat → Nat → LState M C K → LState M C K
  | _, 0, s => s
  | p, k + 1, s => runAttempts env (p + 1) k (attempt env p s)

/-- The within-box predicate evaluated on the state's model. -/
def withinState {M C K : Type} (s : LState M C K) : Bool :=
  s.nc.within s.m

/-- `refine_structure` (main.cpp:136-152): save the original slope, run the
annealing loop, store the heavy-atom coordinates, overwrite the energy with
the sentinel if the model is still not within the box, and restore the
original slope. Returns the final model, output and evaluator. -/
def refine_structure {M C K : Type} (env : RefineEnv M C K) (m : M)
    (nc : NonCache M) (out : OutputType C K) : LState M C K :=
  let slope_orig := nc.slope
  let s := refine_loop env 0 5 ⟨m, out, nc⟩
  let out1 := { s.out with coords := env.get_heavy_atom_movable_coords s.m }
  let out2 := if s.nc.within s.m then out1 else { out1 with e := max_fl }
  ⟨s.m, out2, { s.nc with slope := slope_orig }⟩

/-- Modelled from the spec: `add_to_output_container` (declared in
`coords.h`, defined in `coords.cpp`, which is not part of the sources).
Per the spec's deduplication contract: "accept a candidate into the final
pool only if its RMSD to every already-accepted pose is `≥ min_rmsd`;
otherwise discard it". The RMSD function on coordinates is an opaque
parameter. -/
def add_to_output_container {C K : Type} (rmsd : K → K → ℚ)
    (tmp : List (OutputType C K)) (t : OutputType C K) (min_rmsd : ℚ) :
    List (OutputType C K) :=
  if tmp.all fun q => decide (min_rmsd ≤ rmsd q.coords t.coords) then
    tmp ++ [t]
  else tmp

/-- `remove_redundant` (main.cpp:166-171): fold `add_to_output_container`
over the input container, starting from an empty container. -/
def remove_redundant {C K : Type} (rmsd : K → K → ℚ)
    (input : List (OutputType C K)) (min_rmsd : ℚ) : List (OutputType C K) :=
  input.foldl (fun tmp t => add_to_output_container rmsd tmp t min_rmsd) []

/-- The RMSD threshold used by `do_search` for the dedup pass
(`const fl out_min_rmsd = 1`, main.cpp:262). -/
def out_min_rmsd : ℚ := 1

/-- The output-selection loop at the end of `do_search` (main.cpp:278-294):
starting from `how_many = 0`, walk the pool and stop at the first pose with
`how_many >= num_modes`, `!not_max(e)`, or `e > out_cont[0].e +
energy_range`; otherwise increment `how_many`. `e0` is the energy of the
first pose of the pool. -/
def do_search_selection_go {C K : Type} (num_modes : Nat) (energy_range e0 : ℚ) :
    List (OutputType C K) → Nat → Nat
  | [], how_many => how_many
  | o :: rest, how_many =>
    if decide (num_modes ≤ how_many) || !(not_max o.e)
        || decide (e0 + energy_range < o.e) then
      how_many
    else do_search_selection_go num_modes energy_range e0 rest (how_many + 1)

/-- The number of poses emitted by the output-selection loop of `do_search`
on the given (deduplicated, sorted) pool. -/
def do_search_how_many {C K : Type} (num_modes : Nat) (energy_range : ℚ)
    (out_cont : List (OutputType C K)) : Nat :=
  match out_cont with
  | [] => 0
  | o0 :: _ => do_search_selection_go num_modes energy_range o0.e out_cont 0

/-- The box-containment warning at the end of `do_search`
(main.cpp:299-303): emitted exactly when `how_many < 1`. -/
def do_search_box_warning {C K : Type} (num_modes : Nat) (energy_range : ℚ)
    (out_cont : List (OutputType C K)) : Bool :=
  decide (do_search_how_many num_modes energy_range out_cont < 1)

/-- Specification-side description of output selection: the emitted poses
are the longest prefix of the pool on which the index is below the requested
mode count, the energy is not the invalid sentinel, and the energy is within
`energy_range` of the first (best) pose's energy. -/
def selection_spec {C K : Type} (num_modes : Nat) (energy_range : ℚ)
    (out_cont : List (OutputType C K)) : Nat :=
  match out_cont with
  | [] => 0
  | o0 :: _ =>
    ((out_cont.enum).takeWhile fun pr =>
        decide (pr.1 < num_modes) && not_max pr.2.e
          && decide (pr.2.e ≤ o0.e + energy_range)).length

/-- The two evaluator kinds a `do_search` call can be wired to: the exact
(`non_cache`) evaluator or the precomputed scoring-grid `cache`. -/
inductive Evaluator where
  | exact : Evaluator
  | gridCache : Evaluator
deriving DecidableEq

/-- Which top-level branch `main_procedure` takes. -/
inductive MainPath where
  | randomizePath : MainPath
  | searchPath : MainPath
deriving DecidableEq

/-- The observable wiring decisions of `main_procedure`: the branch taken,
whether `cache::populate` is called, which evaluator is passed to
`do_search` as the search grid `ig`, and which evaluator is passed as the
`nc` argument used by `refine_structure` and the local search. -/
structure MainDispatch where
  path : MainPath
  cache_populated : Bool
  search_grid : Option Evaluator
  refine_eval : Option Evaluator
deriving DecidableEq

/-- The dispatch logic of `main_procedure` (main.cpp:342-368): randomize-only
runs branch off before any evaluator exists; otherwise the `no_cache` branch
passes the exact evaluator everywhere, and the cached branch populates the
grid exactly when `!(score_only || randomize_only || local_only)` and always
passes the exact evaluator as the `nc` argument. -/
def main_procedure_dispatch (score_only local_only randomize_only no_cache : Bool) :
    MainDispatch :=
  if randomize_only then
    ⟨MainPath.randomizePath, false, none, none⟩
  else if no_cache then
    ⟨MainPath.searchPath, false, some Evaluator.exact, some Evaluator.exact⟩
  else
    ⟨MainPath.searchPath, !(score_only || randomize_only || local_only),
      some Evaluator.gridCache, some Evaluator.exact⟩

/-- The whitespace set of the governor's blank-line check
(`path.find_first_not_of(" \t\n\v\f\r")`). -/
def isWhitespaceChar (ch : Char) : Bool :=
  ch = ' ' || ch = '\t' || ch = '\n' || ch = Char.ofNat 11 || ch = Char.ofNat 12
    || ch = '\r'

/-- A line is blank when it consists of whitespace only (this includes the
empty line). -/
def isBlankLine (s : String) : Bool := s.toList.all isWhitespaceChar

/-- A line-oriented job file: its lines in order, and whether the last line
is terminated by a newline character. -/
structure JobFile where
  lines : List String
  finalNewline : Bool
deriving DecidableEq

/-- The state of a C++ input stream reading a `JobFile` line by line: how
many lines have been consumed, and the eof bit. -/
structure StreamState where
  consumed : Nat
  eofbit : Bool
deriving DecidableEq

/-- `std::getline` on the modelled stream: reading an existing line returns
it and sets the eof bit exactly when it is the last line and the file has no
final newline (extraction hits end-of-file); reading past the end returns
the empty string and sets the eof bit. -/
def sgetline (f : JobFile) (s : StreamState) : String × StreamState :=
  if s.consumed < f.lines.length then
    (f.lines.getD s.consumed "",
      ⟨s.consumed + 1,
        decide (s.consumed + 1 = f.lines.length) && !f.finalNewline⟩)
  else ("", ⟨s.consumed, true⟩)

/-- The byte offset of the stream position after `i` consumed lines: each
line contributes its length plus one newline byte, except that a missing
final newline removes one byte at the very end of the file. -/
def bytePos (f : JobFile) (i : Nat) : Nat :=
  (((f.lines.take i).map fun l => l.length + 1).sum) -
    (if decide (i = f.lines.length) && !f.finalNewline && decide (0 < i) then 1
     else 0)

/-- `tellg` on the modelled stream: `-1` once the stream is in a failed
state, the byte position otherwise. -/
def stellg (f : JobFile) (s : StreamState) : Int :=
  if s.eofbit then -1 else Int.ofNat (bytePos f s.consumed)

/-- The payload of one governor-to-worker message that the claims are about:
the byte offset into the job file and the ligand sequence number (the random
seed is opaque and irrelevant to the protocol). -/
structure GovMsg where
  offset : Int
  ligandNbr : Nat
deriving DecidableEq

/-- The data-bound governor loop (main.cpp:953-997): at each iteration the
governor takes `tellg`, receives one `ready` message, sends the assignment
`(seed, seek_offset, ligand_nbr)`, and only then reads the next line; it
breaks when that line shows eof, is empty, or is whitespace-only. Returns
the list of assignments sent, or `none` if the fuel runs out. -/
def govLoop (f : JobFile) : Nat → StreamState → Nat → List GovMsg →
    Option (List GovMsg)
  | 0, _, _, _ => none
  | fuel + 1, s, count, acc =>
    let off := stellg f s
    let acc1 := acc ++ [⟨off, count⟩]
    let r := sgetline f s
    if r.2.eofbit || decide (r.1 = "") || isBlankLine r.1 then some acc1
    else govLoop f fuel r.2 (count + 1) acc1

/-- All assignments the governor sends in its data-bound loop, starting from
a fresh stream on the job file. -/
def govSends (f : JobFile) : Option (List GovMsg) :=
  govLoop f (f.lines.length + 1) ⟨0, false⟩ 0 []

/-- The sentinel tuple: `end_code[1] = -1` signals end of processing; the
worker inspects only the offset field. -/
def sentinelMsg : GovMsg := ⟨-1, 0⟩

/-- The governor's sentinel drain (main.cpp:1000-1010): for every rank `j`
with `1 <= j < world_size`, receive one more `ready` message and reply with
the sentinel tuple. Returns the list of sentinel messages sent. -/
def sentinel_drain (world_size : Nat) : List GovMsg :=
  ((List.range world_size).drop 1).map fun _ => sentinelMsg

/-- The number of non-blank lines of a job file. -/
def countNonBlank (f : JobFile) : Nat :=
  (f.lines.filter fun l => !isBlankLine l).length

/-- The worker loop (main.cpp:1034-1085) viewed through the messages it
receives: it consumes assignments until the first tuple with offset `-1`,
on which it exits at once. Returns the number of data assignments processed,
the number of sentinels consumed, and the messages left unconsumed. -/
def workerRun : List GovMsg → Nat × Nat × List GovMsg
  | [] => (0, 0, [])
  | msg :: rest =>
    if msg.offset = -1 then (0, 1, rest)
    else
      let r := workerRun rest
      (r.1 + 1, r.2.1, r.2.2)

/-- An event of the fork-based scheduler, seen from the parent process:
`spawn j` is a successful `fork` for job number `j` followed by the push of
the child pid; `reap` is one blocking `wait(2)` call paired with popping
the front queue entry. POSIX `wait` completes some child — not necessarily
the one whose pid sits at the queue front, since the code passes that
entry's address only as `wait`'s status out-parameter — so a reap event
carries no child identity. -/
inductive FEvent where
  | spawn : Nat → FEvent
  | reap : FEvent
deriving DecidableEq

/-- The number of spawn events in a trace. -/
def countSpawns (t : List FEvent) : Nat :=
  t.countP fun e => match e with | FEvent.spawn _ => true | _ => false

/-- The number of reap events in a trace. -/
def countReaps (t : List FEvent) : Nat :=
  t.countP fun e => match e with | FEvent.reap => true | _ => false

/-- The number of outstanding (spawned, not yet waited-for) children after
the first `k` events of a trace. -/
def outstandingAfter (t : List FEvent) (k : Nat) : Nat :=
  countSpawns (t.take k) - countReaps (t.take k)

/-- The fork-based scheduler loop (main.cpp:758-852) from the parent's point
of view: read a line; on eof or an empty line, perform one `wait` per
queued child and break; otherwise fork the job, push its pid, and if the
queue size has reached `maxNbrOfFork`, perform one `wait` (popping the
front entry as bookkeeping) before reading the next job. Returns the
parent's event trace, or `none` if the fuel runs out. -/
def forkLoop (f : JobFile) (maxNbrOfFork : Nat) :
    Nat → StreamState → List Nat → Nat → List FEvent → Option (List FEvent)
  | 0, _, _, _, _ => none
  | fuel + 1, s, pid_queue, i, acc =>
    let r := sgetline f s
    if r.2.eofbit || decide (r.1 = "") then
      some (acc ++ pid_queue.map fun _ => FEvent.reap)
    else
      let q1 := pid_queue ++ [i]
      let acc1 := acc ++ [FEvent.spawn i]
      if maxNbrOfFork ≤ q1.length then
        forkLoop f maxNbrOfFork fuel r.2 q1.tail (i + 1) (acc1 ++ [FEvent.reap])
      else forkLoop f maxNbrOfFork fuel r.2 q1 (i + 1) acc1

/-- The parent's event trace for a whole batch run of the fork scheduler. -/
def forkSched (f : JobFile) (N : Nat) : Option (List FEvent) :=
  forkLoop f N (f.lines.length + 1) ⟨0, false⟩ [] 0 []

/-- Well-formed scheduler traces with at most `N` outstanding children:
`bal` is the number of outstanding children at the head of the trace; a
spawn requires the new outstanding count to stay within `N`. -/
inductive OkTrace (N : Nat) : Nat → List FEvent → Prop where
  | nil : ∀ bal, OkTrace N bal []
  | spawn : ∀ bal j rest, bal + 1 ≤ N → OkTrace N (bal + 1) rest →
      OkTrace N bal (FEvent.spawn j :: rest)
  | reap : ∀ bal rest, OkTrace N (bal - 1) rest →
      OkTrace N bal (FEvent.reap :: rest)

/-- Claim C7 as stated: whenever an admission makes the outstanding count
reach the fan-out bound `N`, some wait precedes, in the parent's event
order, the admission of the job that triggered the check. -/
def claimC7_as_stated (f : JobFile) (N : Nat) : Prop :=
  ∀ t, forkSched f N = some t →
    ∀ p j, t[p]? = some (FEvent.spawn j) → N ≤ outstandingAfter t (p + 1) →
      ∃ q, q < p ∧ t[q]? = some FEvent.reap

/-- A concrete refinement environment over trivial model, conformation and
coordinate types, used to instantiate the generic refinement theorems. -/
def unitRefineEnv : RefineEnv Unit Unit Unit :=
  ⟨fun _ m2 o => (m2, o), fun m2 _ => m2, fun _ => ()⟩

/-- A concrete `non_cache` evaluator whose within-box predicate always
fails, used to instantiate the generic refinement theorems. -/
def unitNC : NonCache Unit := ⟨1, fun _ => false⟩

/-- Claim C1: the penalty slope stored in the `non_cache` evaluator after a
call to `refine_structure` equals its value before the call, on every exit
path of the annealing loop (early break, normal exhaustion, and the
divergence path that writes the sentinel energy). -/
theorem refine_structure_restores_slope {M C K : Type} (env : RefineEnv M C K)
    (m : M) (nc : NonCache M) (out : OutputType C K) :
    (refine_structure env m nc out).nc.slope = nc.slope := rfl

theorem selection_go_le_of_sentinel {C K : Type} (nm : Nat) (er e0 : ℚ) :
    ∀ (l : List (OutputType C K)) (hm i : Nat),
      (l.map fun o => o.e)[i]? = some max_fl →
      do_search_selection_go nm er e0 l hm ≤ hm + i := by
  intro l
  induction l with
  | nil => intro hm i h; simp at h
  | cons o rest ih =>
    intro hm i h
    cases i with
    | zero =>
      simp at h
      have hnm : not_max o.e = false := by simp [not_max, h]
      simp [do_search_selection_go, hnm]
    | succ i =>
      simp only [List.map_cons, List.getElem?_cons_succ] at h
      have hrec := ih (hm + 1) i h
      cases hc : (decide (nm ≤ hm) || !not_max o.e
          || decide (e0 + er < o.e)) with
      | false =>
        have heq : do_search_selection_go nm er e0 (o :: rest) hm
            = do_search_selection_go nm er e0 rest (hm + 1) := by
          simp [do_search_selection_go, hc]
        rw [heq]
        omega
      | true =>
        have heq : do_search_selection_go nm er e0 (o :: rest) hm = hm := by
          simp [do_search_selection_go, hc]
        rw [heq]
        omega

/-- Claim C2: if, after the annealing attempts of `refine_structure`, the
within-box predicate still fails on the final model, the returned pose's
energy is the invalid sentinel `max_fl`; and any pose of the selection pool
whose energy is the sentinel is never emitted by the output-selection loop
(the loop stops at or before its index). -/
theorem refine_divergence_sentinel_excluded {M C K D L : Type}
    (env : RefineEnv M C K) (m : M) (nc : NonCache M) (out : OutputType C K)
    (num_modes : Nat) (energy_range : ℚ) (pool : List (OutputType D L))
    (i : Nat) (hs : (pool.map fun o => o.e)[i]? = some max_fl) :
    ((refine_structure env m nc out).nc.within
        (refine_structure env m nc out).m = false →
      (refine_structure env m nc out).out.e = max_fl)
    ∧ do_search_how_many num_modes energy_range pool ≤ i := by
  constructor
  · intro h
    unfold refine_structure at h ⊢
    dsimp only at h ⊢
    simp [h]
  · cases pool with
    | nil => simp [do_search_how_many]
    | cons o0 rest =>
      have := selection_go_le_of_sentinel num_modes energy_range o0.e
        (o0 :: rest) 0 i hs
      simpa [do_search_how_many] using this

theorem do_search_selection_go_eq {C K : Type} (nm : Nat) (er e0 : ℚ) :
    ∀ (l : List (OutputType C K)) (hm : Nat),
      do_search_selection_go nm er e0 l hm
        = hm + ((List.enumFrom hm l).takeWhile fun pr =>
            decide (pr.1 < nm) && not_max pr.2.e
              && decide (pr.2.e ≤ e0 + er)).length := by
  intro l
  induction l with
  | nil => intro hm; simp [do_search_selection_go]
  | cons o rest ih =>
    intro hm
    by_cases h1 : nm ≤ hm
    · have hp : ¬ hm < nm := by omega
      simp [do_search_selection_go, List.enumFrom, List.takeWhile, h1, hp]
    · by_cases h2 : not_max o.e = true
      · by_cases h3 : e0 + er < o.e
        · have hp : ¬ o.e ≤ e0 + er := not_le.mpr h3
          simp [do_search_selection_go, List.enumFrom, List.takeWhile, h1, h2,
            h3, hp]
        · have hp : o.e ≤ e0 + er := not_lt.mp h3
          have hlt : hm < nm := by omega
          simp only [do_search_selection_go, decide_eq_true_eq, h1,
            decide_eq_false h1, h2, Bool.not_true, decide_eq_false h3,
            Bool.or_self, Bool.or_false, Bool.false_or, if_false,
            Bool.false_eq_true]
          rw [ih (hm + 1)]
          simp [List.enumFrom, List.takeWhile, hlt, h2, hp]
          omega
      · simp only [Bool.not_eq_true] at h2
        simp [do_search_selection_go, List.enumFrom, List.takeWhile, h2]

/-- Claim C4: on any pool, the output-selection loop of `do_search` emits
the longest prefix on which the index stays below the requested mode count,
the energy is not the invalid sentinel, and the energy is within
`energy_range` of the first pose's energy — it stops at the first index
violating one of these; and the box-containment warning is emitted exactly
when zero poses were selected. -/
theorem do_search_selection_matches_spec {C K : Type} (num_modes : Nat)
    (energy_range : ℚ) (out_cont : List (OutputType C K)) :
    do_search_how_many num_modes energy_range out_cont
      = selection_spec num_modes energy_range out_cont
    ∧ do_search_box_warning num_modes energy_range out_cont
      = decide (do_search_how_many num_modes energy_range out_cont = 0) := by
  constructor
  · cases out_cont with
    | nil => rfl
    | cons o0 rest =>
      rw [do_search_how_many, do_search_selection_go_eq]
      simp [selection_spec, List.enum]
  · simp [do_search_box_warning, Nat.lt_one_iff]

/-- Claim C10: in `main_procedure`, the scoring-grid cache is populated if
and only if none of `score_only`, `local_only`, `randomize_only` is set and
the cached path is taken (`no_cache` unset); in particular a local-only run
skips grid population and its refinement is wired to the exact (non-cache)
evaluator. -/
theorem main_procedure_cache_population
    (score_only local_only randomize_only no_cache : Bool) :
    (main_procedure_dispatch score_only local_only randomize_only
        no_cache).cache_populated
      = (!score_only && !local_only && !randomize_only && !no_cache)
    ∧ (local_only = true → randomize_only = false →
        (main_procedure_dispatch score_only local_only randomize_only
            no_cache).cache_populated = false
        ∧ (main_procedure_dispatch score_only local_only randomize_only
            no_cache).refine_eval = some Evaluator.exact) := by
  cases score_only <;> cases local_only <;> cases randomize_only <;>
    cases no_cache <;> simp [main_procedure_dispatch]

theorem add_to_output_container_subset {C K : Type} (rmsd : K → K → ℚ)
    (r : ℚ) (acc : List (OutputType C K)) (t : OutputType C K) :
    ∀ a ∈ add_to_output_container rmsd acc t r, a ∈ acc ++ [t] := by
  intro a ha
  unfold add_to_output_container at ha
  split at ha
  · exact ha
  · exact List.mem_append_left _ ha

theorem foldl_add_mem_mono {C K : Type} (rmsd : K → K → ℚ) (r : ℚ) :
    ∀ (l acc : List (OutputType C K)) (a : OutputType C K), a ∈ acc →
      a ∈ List.foldl (fun tmp t => add_to_output_container rmsd tmp t r) acc l := by
  intro l
  induction l with
  | nil => intro acc a ha; simpa using ha
  | cons t rest ih =>
    intro acc a ha
    rw [List.foldl_cons]
    apply ih
    unfold add_to_output_container
    split
    · exact List.mem_append_left _ ha
    · exact ha

theorem foldl_add_pairwise {C K : Type} (rmsd : K → K → ℚ) (r : ℚ) :
    ∀ (l acc : List (OutputType C K)),
      List.Pairwise (fun u v => r ≤ rmsd u.coords v.coords) acc →
      List.Pairwise (fun u v => r ≤ rmsd u.coords v.coords)
        (List.foldl (fun tmp t => add_to_output_container rmsd tmp t r) acc l) := by
  intro l
  induction l with
  | nil => intro acc h; simpa using h
  | cons t rest ih =>
    intro acc h
    rw [List.foldl_cons]
    apply ih
    unfold add_to_output_container
    split
    case isTrue htrue =>
      rw [List.pairwise_append]
      refine ⟨h, List.pairwise_singleton _ _, ?_⟩
      intro a ha b hb
      rw [List.mem_singleton] at hb
      subst hb
      exact of_decide_eq_true (List.all_eq_true.mp htrue a ha)
    case isFalse _ => exact h

theorem foldl_add_fixed {C K : Type} (rmsd : K → K → ℚ) (r : ℚ) :
    ∀ (l acc : List (OutputType C K)),
      List.Pairwise (fun u v => r ≤ rmsd u.coords v.coords) (acc ++ l) →
      List.foldl (fun tmp t => add_to_output_container rmsd tmp t r) acc l
        = acc ++ l := by
  intro l
  induction l with
  | nil => intro acc _; simp
  | cons t rest ih =>
    intro acc h
    have hcond : (acc.all fun q => decide (r ≤ rmsd q.coords t.coords)) = true := by
      rw [List.all_eq_true]
      intro q hq
      exact decide_eq_true ((List.pairwise_append.mp h).2.2 q hq t (by simp))
    have hadd : add_to_output_container rmsd acc t r = acc ++ [t] := by
      unfold add_to_output_container
      rw [if_pos hcond]
    rw [List.foldl_cons, hadd]
    have happ : (acc ++ [t]) ++ rest = acc ++ t :: rest := by simp
    rw [ih (acc ++ [t]) (by rw [happ]; exact h), happ]

theorem foldl_add_discarded {C K : Type} (rmsd : K → K → ℚ) (r : ℚ) :
    ∀ (l acc : List (OutputType C K)),
      List.Pairwise (fun a b => a.e ≤ b.e) l →
      (∀ a ∈ acc, ∀ s ∈ l, a.e ≤ s.e) →
      ∀ t ∈ l,
        t ∉ List.foldl (fun tmp t2 => add_to_output_container rmsd tmp t2 r) acc l →
        ∃ u ∈ List.foldl (fun tmp t2 => add_to_output_container rmsd tmp t2 r) acc l,
          rmsd u.coords t.coords < r ∧ u.e ≤ t.e := by
  intro l
  induction l with
  | nil => intro acc _ _ t ht; simp at ht
  | cons t0 rest ih =>
    intro acc hsort hord t ht htnot
    rw [List.foldl_cons] at htnot ⊢
    rw [List.mem_cons] at ht
    rcases ht with rfl | htrest
    · by_cases hcond : (acc.all fun q => decide (r ≤ rmsd q.coords t.coords)) = true
      · exfalso
        apply htnot
        apply foldl_add_mem_mono
        unfold add_to_output_container
        rw [if_pos hcond]
        simp
      · have hmemu : ∃ u ∈ acc, rmsd u.coords t.coords < r := by
          by_contra hno
          push_neg at hno
          apply hcond
          rw [List.all_eq_true]
          intro q hq
          exact decide_eq_true (hno q hq)
        obtain ⟨u, hu, hlt⟩ := hmemu
        have hacc : add_to_output_container rmsd acc t r = acc := by
          unfold add_to_output_container
          rw [if_neg hcond]
        rw [hacc] at htnot ⊢
        exact ⟨u, foldl_add_mem_mono rmsd r rest acc u hu, hlt,
          hord u hu t (List.mem_cons_self _ _)⟩
    · have hsort' := (List.pairwise_cons.mp hsort).2
      have hhead := (List.pairwise_cons.mp hsort).1
      apply ih (add_to_output_container rmsd acc t0 r) hsort' ?_ t htrest htnot
      intro a ha s hs
      rcases List.mem_append.mp
          (add_to_output_container_subset rmsd r acc t0 a ha) with hin | hin
      · exact hord a hin s (List.mem_cons_of_mem _ hs)
      · rw [List.mem_singleton] at hin
        subst hin
        exact hhead s hs

/-- Claim C3: on an ascending-energy candidate pool, every pair of distinct
poses retained by `remove_redundant` has RMSD at least `min_rmsd`, and every
discarded candidate has a retained representative at RMSD below `min_rmsd`
whose energy is no larger — the retained pose of each RMSD cluster is its
lowest-energy member. -/
theorem remove_redundant_pairwise_and_lowest {C K : Type} (rmsd : K → K → ℚ)
    (min_rmsd : ℚ) (input : List (OutputType C K))
    (hsorted : List.Pairwise (fun a b => a.e ≤ b.e) input) :
    List.Pairwise (fun u v => min_rmsd ≤ rmsd u.coords v.coords)
      (remove_redundant rmsd input min_rmsd)
    ∧ ∀ t ∈ input, t ∉ remove_redundant rmsd input min_rmsd →
        ∃ u ∈ remove_redundant rmsd input min_rmsd,
          rmsd u.coords t.coords < min_rmsd ∧ u.e ≤ t.e := by
  constructor
  · exact foldl_add_pairwise rmsd min_rmsd input [] List.Pairwise.nil
  · intro t ht htn
    exact foldl_add_discarded rmsd min_rmsd input [] hsorted (by simp) t ht htn

/-- Witness for claim C3: a concrete two-pose pool in ascending energy order
whose second pose is within RMSD 1/2 of the first and is discarded. -/
theorem remove_redundant_pairwise_and_lowest_witness :
    List.Pairwise (fun a b => a.e ≤ b.e)
      [(⟨0, 0, 0⟩ : OutputType ℚ ℚ), ⟨0, 1, 1/2⟩]
    ∧ (List.Pairwise
        (fun u v => out_min_rmsd ≤ (fun a b => |a - b|) u.coords v.coords)
        (remove_redundant (fun a b => |a - b|)
          [(⟨0, 0, 0⟩ : OutputType ℚ ℚ), ⟨0, 1, 1/2⟩] out_min_rmsd)
      ∧ ∀ t ∈ [(⟨0, 0, 0⟩ : OutputType ℚ ℚ), ⟨0, 1, 1/2⟩],
          t ∉ remove_redundant (fun a b => |a - b|)
            [(⟨0, 0, 0⟩ : OutputType ℚ ℚ), ⟨0, 1, 1/2⟩] out_min_rmsd →
          ∃ u ∈ remove_redundant (fun a b => |a - b|)
            [(⟨0, 0, 0⟩ : OutputType ℚ ℚ), ⟨0, 1, 1/2⟩] out_min_rmsd,
            (fun a b => |a - b|) u.coords t.coords < out_min_rmsd
              ∧ u.e ≤ t.e) :=
  ⟨by decide,
    remove_redundant_pairwise_and_lowest (fun a b => |a - b|) out_min_rmsd
      [⟨0, 0, 0⟩, ⟨0, 1, 1/2⟩] (by decide)⟩

/-- Claim C9: the dedup pass is idempotent — applying `remove_redundant`
with the same `min_rmsd` to its own output yields an identical pool. -/
theorem remove_redundant_idempotent {C K : Type} (rmsd : K → K → ℚ)
    (min_rmsd : ℚ) (input : List (OutputType C K)) :
    remove_redundant rmsd (remove_redundant rmsd input min_rmsd) min_rmsd
      = remove_redundant rmsd input min_rmsd := by
  have hp := foldl_add_pairwise rmsd min_rmsd input [] List.Pairwise.nil
  have hfix := foldl_add_fixed rmsd min_rmsd
    (remove_redundant rmsd input min_rmsd) [] (by simpa using hp)
  simpa [remove_redundant] using hfix

theorem runAttempts_slope {M C K : Type} (env : RefineEnv M C K) :
    ∀ (k p : Nat) (s : LState M C K),
      (runAttempts env p (k + 1) s).nc.slope = slope_schedule (p + k) := by
  intro k
  induction k with
  | zero => intro p s; simp [runAttempts, attempt]
  | succ k ih =>
    intro p s
    have hstep : runAttempts env p (k + 1 + 1) s
        = runAttempts env (p + 1) (k + 1) (attempt env p s) := rfl
    rw [hstep, ih (p + 1) (attempt env p s)]
    congr 1
    omega

/-- Claim C8: inside `refine_structure`, attempt `p` runs the minimizer with
slope `100 * 10^(2p)` (`100, 10^4, 10^6, 10^8, 10^10` in order) and updates
the pose (model and output) to the minimizer's result; the loop performs
some `k ≤ 5` attempts, exiting at the first attempt after which the
within-box predicate holds. -/
theorem refine_loop_schedule {M C K : Type} (env : RefineEnv M C K)
    (s : LState M C K) :
    (∀ (p : Nat) (s2 : LState M C K), attempt env p s2
        = ⟨env.set
              (env.quasi_newton { s2.nc with slope := slope_schedule p }
                s2.m s2.out).1
              (env.quasi_newton { s2.nc with slope := slope_schedule p }
                s2.m s2.out).2.c,
            (env.quasi_newton { s2.nc with slope := slope_schedule p }
              s2.m s2.out).2,
            { s2.nc with slope := slope_schedule p }⟩)
    ∧ slope_schedule 0 = 100 ∧ slope_schedule 1 = 10 ^ 4
    ∧ slope_schedule 2 = 10 ^ 6 ∧ slope_schedule 3 = 10 ^ 8
    ∧ slope_schedule 4 = 10 ^ 10
    ∧ (∀ j : Nat, (runAttempts env 0 (j + 1) s).nc.slope = slope_schedule j)
    ∧ ∃ k, 1 ≤ k ∧ k ≤ 5
        ∧ refine_loop env 0 5 s = runAttempts env 0 k s
        ∧ (∀ j, j + 1 < k → withinState (runAttempts env 0 (j + 1) s) = false)
        ∧ (k < 5 → withinState (runAttempts env 0 k s) = true) := by
  refine ⟨fun p s2 => rfl, by norm_num [slope_schedule],
    by norm_num [slope_schedule], by norm_num [slope_schedule],
    by norm_num [slope_schedule], by norm_num [slope_schedule],
    fun j => by simpa using runAttempts_slope env j 0 s, ?_⟩
  have r1 : runAttempts env 0 1 s = attempt env 0 s := rfl
  have r2 : runAttempts env 0 2 s = attempt env 1 (attempt env 0 s) := rfl
  have r3 : runAttempts env 0 3 s
      = attempt env 2 (attempt env 1 (attempt env 0 s)) := rfl
  have r4 : runAttempts env 0 4 s
      = attempt env 3 (attempt env 2 (attempt env 1 (attempt env 0 s))) := rfl
  have r5 : runAttempts env 0 5 s
      = attempt env 4 (attempt env 3 (attempt env 2 (attempt env 1
          (attempt env 0 s)))) := rfl
  have e1 : refine_loop env 0 5 s
      = if withinState (attempt env 0 s) then attempt env 0 s
        else refine_loop env 1 4 (attempt env 0 s) := rfl
  have e2 : refine_loop env 1 4 (attempt env 0 s)
      = if withinState (attempt env 1 (attempt env 0 s)) then
          attempt env 1 (attempt env 0 s)
        else refine_loop env 2 3 (attempt env 1 (attempt env 0 s)) := rfl
  have e3 : refine_loop env 2 3 (attempt env 1 (attempt env 0 s))
      = if withinState (attempt env 2 (attempt env 1 (attempt env 0 s))) then
          attempt env 2 (attempt env 1 (attempt env 0 s))
        else refine_loop env 3 2
          (attempt env 2 (attempt env 1 (attempt env 0 s))) := rfl
  have e4 : refine_loop env 3 2 (attempt env 2 (attempt env 1 (attempt env 0 s)))
      = if withinState (attempt env 3 (attempt env 2 (attempt env 1
            (attempt env 0 s)))) then
          attempt env 3 (attempt env 2 (attempt env 1 (attempt env 0 s)))
        else refine_loop env 4 1 (attempt env 3 (attempt env 2 (attempt env 1
          (attempt env 0 s)))) := rfl
  have e5 : refine_loop env 4 1 (attempt env 3 (attempt env 2 (attempt env 1
        (attempt env 0 s))))
      = if withinState (attempt env 4 (attempt env 3 (attempt env 2
            (attempt env 1 (attempt env 0 s))))) then
          attempt env 4 (attempt env 3 (attempt env 2 (attempt env 1
            (attempt env 0 s))))
        else attempt env 4 (attempt env 3 (attempt env 2 (attempt env 1
          (attempt env 0 s)))) := rfl
  cases h1 : withinState (attempt env 0 s) with
  | true =>
    refine ⟨1, by omega, by omega, ?_, by omega, fun _ => r1 ▸ h1⟩
    rw [e1, if_pos h1, r1]
  | false =>
    cases h2 : withinState (attempt env 1 (attempt env 0 s)) with
    | true =>
      refine ⟨2, by omega, by omega, ?_, ?_, fun _ => r2 ▸ h2⟩
      · rw [e1, if_neg (by simp [h1]), e2, if_pos h2, r2]
      · intro j hj
        have hj0 : j = 0 := by omega
        subst hj0
        exact r1 ▸ h1
    | false =>
      cases h3 : withinState (attempt env 2 (attempt env 1 (attempt env 0 s))) with
      | true =>
        refine ⟨3, by omega, by omega, ?_, ?_, fun _ => r3 ▸ h3⟩
        · rw [e1, if_neg (by simp [h1]), e2, if_neg (by simp [h2]), e3,
            if_pos h3, r3]
        · intro j hj
          rcases (by omega : j = 0 ∨ j = 1) with rfl | rfl
          · exact r1 ▸ h1
          · exact r2 ▸ h2
      | false =>
        cases h4 : withinState (attempt env 3 (attempt env 2 (attempt env 1
            (attempt env 0 s)))) with
        | true =>
          refine ⟨4, by omega, by omega, ?_, ?_, fun _ => r4 ▸ h4⟩
          · rw [e1, if_neg (by simp [h1]), e2, if_neg (by simp [h2]), e3,
              if_neg (by simp [h3]), e4, if_pos h4, r4]
          · intro j hj
            rcases (by omega : j = 0 ∨ j = 1 ∨ j = 2) with rfl | rfl | rfl
            · exact r1 ▸ h1
            · exact r2 ▸ h2
            · exact r3 ▸ h3
        | false =>
          refine ⟨5, by omega, by omega, ?_, ?_, by omega⟩
          · rw [e1, if_neg (by simp [h1]), e2, if_neg (by simp [h2]), e3,
              if_neg (by simp [h3]), e4, if_neg (by simp [h4]), e5, r5]
            simp
          · intro j hj
            rcases (by omega : j = 0 ∨ j = 1 ∨ j = 2 ∨ j = 3)
              with rfl | rfl | rfl | rfl
            · exact r1 ▸ h1
            · exact r2 ▸ h2
            · exact r3 ▸ h3
            · exact r4 ▸ h4

theorem govLoop_succ (f : JobFile) (fuel : Nat) (s : StreamState) (count : Nat)
    (acc : List GovMsg) :
    govLoop f (fuel + 1) s count acc
      = if (sgetline f s).2.eofbit || decide ((sgetline f s).1 = "")
            || isBlankLine (sgetline f s).1 then
          some (acc ++ [⟨stellg f s, count⟩])
        else govLoop f fuel (sgetline f s).2 (count + 1)
          (acc ++ [⟨stellg f s, count⟩]) := rfl

theorem sgetline_lt (f : JobFile) (s : StreamState)
    (h : s.consumed < f.lines.length) :
    sgetline f s = (f.lines.getD s.consumed "",
      ⟨s.consumed + 1,
        decide (s.consumed + 1 = f.lines.length) && !f.finalNewline⟩) := by
  unfold sgetline
  rw [if_pos h]

theorem sgetline_ge (f : JobFile) (s : StreamState)
    (h : ¬ s.consumed < f.lines.length) :
    sgetline f s = ("", ⟨s.consumed, true⟩) := by
  unfold sgetline
  rw [if_neg h]

theorem stellg_ok (f : JobFile) (c : Nat) :
    stellg f ⟨c, false⟩ = Int.ofNat (bytePos f c) := by
  unfold stellg
  simp

theorem isBlankLine_empty : isBlankLine "" = true := rfl

theorem govLoop_spec (f : JobFile)
    (hnb : ∀ l ∈ f.lines, isBlankLine l = false) :
    ∀ (fuel c count : Nat) (acc : List GovMsg),
      c ≤ f.lines.length → f.lines.length - c < fuel →
      ∃ tail, govLoop f fuel ⟨c, false⟩ count acc = some (acc ++ tail)
        ∧ (∀ m2 ∈ tail, 0 ≤ m2.offset)
        ∧ tail.length = (if f.finalNewline = false ∧ c < f.lines.length
            then f.lines.length - c else f.lines.length - c + 1) := by
  intro fuel
  induction fuel with
  | zero => intro c count acc hc hf; omega
  | succ fuel ih =>
    intro c count acc hc hf
    by_cases hcl : c < f.lines.length
    · have hpath_mem : f.lines.getD c "" ∈ f.lines := by
        rw [List.getD_eq_getElem f.lines "" hcl]
        exact List.getElem_mem hcl
      have hblank : isBlankLine (f.lines.getD c "") = false := hnb _ hpath_mem
      have hne : ¬ (f.lines.getD c "" = "") := by
        intro h0
        rw [h0, isBlankLine_empty] at hblank
        exact Bool.true_eq_false.mp hblank
      rw [govLoop_succ, sgetline_lt f ⟨c, false⟩ hcl]
      dsimp only
      by_cases heof : (decide (c + 1 = f.lines.length) && !f.finalNewline) = true
      · rw [if_pos (by simp [heof])]
        refine ⟨[⟨stellg f ⟨c, false⟩, count⟩], rfl, ?_, ?_⟩
        · intro m2 hm2
          rw [List.mem_singleton] at hm2
          subst hm2
          rw [stellg_ok]
          exact Int.ofNat_nonneg _
        · rw [Bool.and_eq_true, decide_eq_true_eq, Bool.not_eq_true'] at heof
          rw [if_pos ⟨heof.2, hcl⟩]
          simp only [List.length_singleton]
          omega
      · have heof' : (decide (c + 1 = f.lines.length) && !f.finalNewline)
            = false := by
          simp only [Bool.not_eq_true] at heof
          exact heof
        have hneb : decide (f.lines.getD c "" = "") = false := decide_eq_false hne
        have hcondf : ((decide (c + 1 = f.lines.length) && !f.finalNewline)
            || decide (f.lines.getD c "" = "")
            || isBlankLine (f.lines.getD c "")) = false := by
          rw [heof', hneb, hblank]
          rfl
        rw [if_neg (by rw [hcondf]; simp), heof']
        obtain ⟨tail, heq, hoff, hlen⟩ :=
          ih (c + 1) (count + 1) (acc ++ [⟨stellg f ⟨c, false⟩, count⟩])
            (by omega) (by omega)
        refine ⟨⟨stellg f ⟨c, false⟩, count⟩ :: tail, by simpa using heq, ?_, ?_⟩
        · intro m2 hm2
          rw [List.mem_cons] at hm2
          rcases hm2 with rfl | hm2
          · rw [stellg_ok]
            exact Int.ofNat_nonneg _
          · exact hoff m2 hm2
        · rw [Bool.and_eq_false_iff] at heof'
          simp only [List.length_cons, hlen]
          cases hfn : f.finalNewline with
          | true => simp [hfn]; omega
          | false =>
            have hne2 : ¬ (c + 1 = f.lines.length) := by
              rcases heof' with h | h
              · simpa using h
              · rw [hfn] at h; simp at h
            have hlt2 : c + 1 < f.lines.length := by omega
            rw [if_pos ⟨rfl, hlt2⟩, if_pos ⟨rfl, hcl⟩]
            omega
    · have hceq : c = f.lines.length := by omega
      rw [govLoop_succ, sgetline_ge f ⟨c, false⟩ hcl]
      dsimp only
      rw [if_pos (by simp)]
      refine ⟨[⟨stellg f ⟨c, false⟩, count⟩], rfl, ?_, ?_⟩
      · intro m2 hm2
        rw [List.mem_singleton] at hm2
        subst hm2
        rw [stellg_ok]
        exact Int.ofNat_nonneg _
      · rw [if_neg fun hcon => absurd hcon.2 (by omega)]
        simp only [List.length_singleton]
        omega

theorem workerRun_sentinel (ms : List GovMsg)
    (hms : ∀ m2 ∈ ms, 0 ≤ m2.offset) :
    workerRun (ms ++ [sentinelMsg]) = (ms.length, 1, []) := by
  induction ms with
  | nil => simp [workerRun, sentinelMsg]
  | cons m rest ih =>
    have h0 : ¬ (m.offset = -1) := by
      have := hms m (List.mem_cons_self _ _)
      omega
    have hrec := ih fun x hx => hms x (List.mem_cons_of_mem _ hx)
    simp [workerRun, h0, hrec]

/-- Counterexample for claim C5: a job file with exactly one non-blank line
(and a final newline) makes the governor's data loop send two assignments,
not one — the governor sends an assignment before reading and validating the
line it points at, so the end of the file is discovered one send too late. -/
theorem governor_assignment_count_counterexample :
    (govSends ⟨["a"], true⟩).map List.length = some 2
    ∧ countNonBlank ⟨["a"], true⟩ = 1 := by
  constructor
  · rfl
  · rfl

/-- Claim C5 (amended): for a job file whose `k` lines are all non-blank,
every assignment sent by the governor's data loop carries a byte offset
`≥ 0`; the data loop sends exactly `k` assignments when the file's last line
is not newline-terminated, and `k + 1` otherwise (the extra, final
assignment points at end-of-file and yields no ligand); the sentinel drain
sends exactly one sentinel to each of the `W` workers; and a worker that
receives non-sentinel assignments followed by one sentinel processes all of
them, consumes exactly that one sentinel, and exits immediately on it. -/
theorem farm_protocol_amended (f : JobFile) (W : Nat) (ms : List GovMsg)
    (hnb : ∀ l ∈ f.lines, isBlankLine l = false)
    (hms : ∀ m2 ∈ ms, 0 ≤ m2.offset) :
    countNonBlank f = f.lines.length
    ∧ (∃ l, govSends f = some l
        ∧ (∀ m2 ∈ l, 0 ≤ m2.offset)
        ∧ l.length = (if f.finalNewline = false ∧ 0 < f.lines.length
            then f.lines.length else f.lines.length + 1))
    ∧ (sentinel_drain (W + 1)).length = W
    ∧ workerRun (ms ++ [sentinelMsg]) = (ms.length, 1, []) := by
  refine ⟨?_, ?_, ?_, workerRun_sentinel ms hms⟩
  · unfold countNonBlank
    rw [List.filter_eq_self.mpr]
    intro a ha
    rw [hnb a ha]
    rfl
  · obtain ⟨tail, heq, hoff, hlen⟩ :=
      govLoop_spec f hnb (f.lines.length + 1) 0 0 [] (by omega) (by omega)
    refine ⟨tail, by simpa [govSends] using heq, hoff, by simpa using hlen⟩
  · simp [sentinel_drain]

/-- Witness for the amended claim C5: a one-line job file without a final
newline, three worker ranks, and a worker message stream with one data
assignment. -/
theorem farm_protocol_amended_witness :
    (∀ l ∈ (JobFile.mk ["ab"] false).lines, isBlankLine l = false)
    ∧ (∀ m2 ∈ [(⟨0, 0⟩ : GovMsg)], 0 ≤ m2.offset)
    ∧ (countNonBlank ⟨["ab"], false⟩ = (JobFile.mk ["ab"] false).lines.length
      ∧ (∃ l, govSends ⟨["ab"], false⟩ = some l
          ∧ (∀ m2 ∈ l, 0 ≤ m2.offset)
          ∧ l.length = (if (JobFile.mk ["ab"] false).finalNewline = false
                ∧ 0 < (JobFile.mk ["ab"] false).lines.length
              then (JobFile.mk ["ab"] false).lines.length
              else (JobFile.mk ["ab"] false).lines.length + 1))
      ∧ (sentinel_drain (2 + 1)).length = 2
      ∧ workerRun ([(⟨0, 0⟩ : GovMsg)] ++ [sentinelMsg])
          = ([(⟨0, 0⟩ : GovMsg)].length, 1, [])) :=
  ⟨by decide, by decide,
    farm_protocol_amended ⟨["ab"], false⟩ 2 [⟨0, 0⟩] (by decide) (by decide)⟩

theorem countSpawns_nil : countSpawns [] = 0 := rfl

theorem countReaps_nil : countReaps [] = 0 := rfl

theorem countSpawns_cons_spawn (j : Nat) (l : List FEvent) :
    countSpawns (FEvent.spawn j :: l) = countSpawns l + 1 := by
  simp [countSpawns, List.countP_cons]

theorem countSpawns_cons_reap (l : List FEvent) :
    countSpawns (FEvent.reap :: l) = countSpawns l := by
  simp [countSpawns, List.countP_cons]

theorem countReaps_cons_spawn (j : Nat) (l : List FEvent) :
    countReaps (FEvent.spawn j :: l) = countReaps l := by
  simp [countReaps, List.countP_cons]

theorem countReaps_cons_reap (l : List FEvent) :
    countReaps (FEvent.reap :: l) = countReaps l + 1 := by
  simp [countReaps, List.countP_cons]

theorem countSpawns_append (l1 l2 : List FEvent) :
    countSpawns (l1 ++ l2) = countSpawns l1 + countSpawns l2 := by
  simp [countSpawns, List.countP_append]

theorem countReaps_append (l1 l2 : List FEvent) :
    countReaps (l1 ++ l2) = countReaps l1 + countReaps l2 := by
  simp [countReaps, List.countP_append]

theorem countReaps_map_reap (q : List Nat) :
    countReaps (q.map fun _ => FEvent.reap) = q.length := by
  induction q with
  | nil => rfl
  | cons a as ih => rw [List.map_cons, countReaps_cons_reap, ih, List.length_cons]

theorem countSpawns_map_reap (q : List Nat) :
    countSpawns (q.map fun _ => FEvent.reap) = 0 := by
  induction q with
  | nil => rfl
  | cons a as ih => rw [List.map_cons, countSpawns_cons_reap, ih]

theorem okTrace_map_reap (N : Nat) :
    ∀ (q : List Nat) (bal : Nat), OkTrace N bal (q.map fun _ => FEvent.reap) := by
  intro q
  induction q with
  | nil => intro bal; exact OkTrace.nil bal
  | cons a as ih =>
    intro bal
    exact OkTrace.reap bal _ (ih (bal - 1))

theorem forkLoop_succ (f : JobFile) (N fuel : Nat) (s : StreamState)
    (q : List Nat) (i : Nat) (acc : List FEvent) :
    forkLoop f N (fuel + 1) s q i acc
      = if (sgetline f s).2.eofbit || decide ((sgetline f s).1 = "") then
          some (acc ++ q.map fun _ => FEvent.reap)
        else if N ≤ (q ++ [i]).length then
          forkLoop f N fuel (sgetline f s).2 (q ++ [i]).tail (i + 1)
            ((acc ++ [FEvent.spawn i]) ++ [FEvent.reap])
        else forkLoop f N fuel (sgetline f s).2 (q ++ [i]) (i + 1)
          (acc ++ [FEvent.spawn i]) := rfl

theorem forkLoop_spec (f : JobFile) (N : Nat) :
    ∀ (fuel c i : Nat) (q : List Nat) (acc : List FEvent),
      f.lines.length - c < fuel →
      q.length ≤ max N 1 - 1 →
      ∃ ext, forkLoop f N fuel ⟨c, false⟩ q i acc = some (acc ++ ext)
        ∧ OkTrace (max N 1) q.length ext
        ∧ countReaps ext = countSpawns ext + q.length := by
  intro fuel
  induction fuel with
  | zero => intro c i q acc hf hq; omega
  | succ fuel ih =>
    intro c i q acc hf hq
    have hmax1 : 1 ≤ max N 1 := le_max_right N 1
    rw [forkLoop_succ]
    by_cases hcl : c < f.lines.length
    · rw [sgetline_lt f ⟨c, false⟩ hcl]
      dsimp only
      by_cases hbrk : ((decide (c + 1 = f.lines.length) && !f.finalNewline)
          || decide (f.lines.getD c "" = "")) = true
      · rw [if_pos hbrk]
        refine ⟨q.map fun _ => FEvent.reap, rfl, okTrace_map_reap _ q _, ?_⟩
        rw [countReaps_map_reap, countSpawns_map_reap]
        omega
      · have hbrk' : ((decide (c + 1 = f.lines.length) && !f.finalNewline)
            || decide (f.lines.getD c "" = "")) = false := by
          simp only [Bool.not_eq_true] at hbrk
          exact hbrk
        rw [Bool.or_eq_false_iff] at hbrk'
        rw [if_neg (by rw [Bool.or_eq_false_iff.mpr hbrk']; simp), hbrk'.1]
        have hlen1 : (q ++ [i]).length = q.length + 1 := by simp
        have htail : (q ++ [i]).tail.length = q.length := by
          rw [List.length_tail, hlen1]
          omega
        by_cases hNq : N ≤ (q ++ [i]).length
        · rw [if_pos hNq]
          obtain ⟨ext, heq, hok, hbal⟩ :=
            ih (c + 1) (i + 1) (q ++ [i]).tail
              ((acc ++ [FEvent.spawn i]) ++ [FEvent.reap])
              (by omega) (by rw [htail]; exact hq)
          refine ⟨FEvent.spawn i :: FEvent.reap :: ext,
            by simpa using heq, ?_, ?_⟩
          · apply OkTrace.spawn _ _ _ (by omega)
            apply OkTrace.reap
            rw [htail] at hok
            exact hok
          · rw [countReaps_cons_spawn, countReaps_cons_reap,
              countSpawns_cons_spawn, countSpawns_cons_reap, hbal, htail]
            omega
        · rw [if_neg hNq]
          have hlt : q.length + 1 < N := by
            rw [hlen1] at hNq
            omega
          have hmaxN : max N 1 = N := Nat.max_eq_left (by omega)
          obtain ⟨ext, heq, hok, hbal⟩ :=
            ih (c + 1) (i + 1) (q ++ [i]) (acc ++ [FEvent.spawn i])
              (by omega) (by rw [hlen1, hmaxN]; omega)
          refine ⟨FEvent.spawn i :: ext, by simpa using heq, ?_, ?_⟩
          · apply OkTrace.spawn _ _ _ (by omega)
            rw [hlen1] at hok
            exact hok
          · rw [countReaps_cons_spawn, countSpawns_cons_spawn, hbal, hlen1]
            omega
    · rw [sgetline_ge f ⟨c, false⟩ hcl]
      dsimp only
      rw [if_pos (by simp)]
      refine ⟨q.map fun _ => FEvent.reap, rfl, okTrace_map_reap _ q _, ?_⟩
      rw [countReaps_map_reap, countSpawns_map_reap]
      omega

theorem okTrace_take_bound (N : Nat) :
    ∀ (t : List FEvent) (bal : Nat), OkTrace N bal t → bal ≤ N →
      ∀ k, bal + countSpawns (t.take k) ≤ countReaps (t.take k) + N := by
  intro t
  induction t with
  | nil =>
    intro bal _ hb k
    simp only [List.take_nil, countSpawns_nil, countReaps_nil]
    omega
  | cons e rest ih =>
    intro bal h hb k
    cases k with
    | zero =>
      simp only [List.take_zero, countSpawns_nil, countReaps_nil]
      omega
    | succ k =>
      rw [List.take_succ_cons]
      cases h with
      | spawn bal j rest hle hrest =>
        rw [countSpawns_cons_spawn, countReaps_cons_spawn]
        have := ih (bal + 1) hrest hle k
        omega
      | reap bal rest hrest =>
        rw [countSpawns_cons_reap, countReaps_cons_reap]
        have := ih (bal - 1) hrest (by omega) k
        omega

theorem reap_between (t : List FEvent) (N : Nat) (hN : 1 ≤ N)
    (hb : ∀ k, countSpawns (t.take k) ≤ countReaps (t.take k) + N) :
    ∀ p1 p2 j1 j2, p1 < p2 → t[p1]? = some (FEvent.spawn j1) →
      t[p2]? = some (FEvent.spawn j2) → N ≤ outstandingAfter t (p1 + 1) →
      ∃ q, p1 < q ∧ q < p2 ∧ t[q]? = some FEvent.reap := by
  intro p1 p2 j1 j2 hlt h1 h2 hout
  by_contra hno
  push_neg at hno
  have hstep : ∀ r, p1 + 1 ≤ r → r ≤ p2 →
      countReaps (t.take r) = countReaps (t.take (p1 + 1))
      ∧ countSpawns (t.take (p1 + 1)) ≤ countSpawns (t.take r) := by
    intro r hr1
    induction r, hr1 using Nat.le_induction with
    | base => intro _; exact ⟨rfl, le_refl _⟩
    | succ r hr ih =>
      intro hr2
      obtain ⟨ihr, ihs⟩ := ih (by omega)
      rw [List.take_succ, countReaps_append, countSpawns_append]
      cases hgr : t[r]? with
      | none =>
        rw [Option.toList_none, countReaps_nil, countSpawns_nil]
        omega
      | some e =>
        cases e with
        | spawn j =>
          rw [Option.toList_some,
            show countReaps [FEvent.spawn j] = 0 from rfl,
            show countSpawns [FEvent.spawn j] = 1 from rfl]
          omega
        | reap => exact absurd hgr (hno r (by omega) (by omega))
  obtain ⟨hCR, hCS⟩ := hstep p2 (by omega) (le_refl _)
  have hbnd := hb (p2 + 1)
  rw [List.take_succ, countReaps_append, countSpawns_append, h2,
    Option.toList_some,
    show countReaps [FEvent.spawn j2] = 0 from rfl,
    show countSpawns [FEvent.spawn j2] = 1 from rfl] at hbnd
  unfold outstandingAfter at hout
  omega

/-- Counterexample for claim C6: with configured fan-out `N = 0` and a
one-job file, the parent forks the job and pushes its pid before checking
the admission bound, so right after the push one child is outstanding — the
queue does exceed the configured fan-out at that point of the loop. -/
theorem fork_bound_counterexample :
    ∃ t, forkSched ⟨["a"], true⟩ 0 = some t ∧ 0 < outstandingAfter t 1 :=
  ⟨[FEvent.spawn 0, FEvent.reap], rfl, by decide⟩

/-- Claim C6 (amended): for any fan-out bound `N ≥ 1`, at every point of the
fork scheduler's event trace the number of outstanding (spawned, not yet
waited-for) children is at most `N`; and when the job source is exhausted
the parent waits for every remaining queued child before breaking out of the
loop, so the full trace is balanced. -/
theorem fork_outstanding_bounded (f : JobFile) (N : Nat) (hN : 1 ≤ N) :
    ∃ t, forkSched f N = some t
      ∧ (∀ k, countSpawns (t.take k) ≤ countReaps (t.take k) + N)
      ∧ countSpawns t = countReaps t := by
  have hmax : max N 1 = N := Nat.max_eq_left hN
  obtain ⟨ext, heq, hok, hbal⟩ :=
    forkLoop_spec f N (f.lines.length + 1) 0 0 [] [] (by omega) (by simp)
  have hbal' : countSpawns ext = countReaps ext := by
    simp only [List.length_nil, Nat.add_zero] at hbal
    omega
  refine ⟨ext, by simpa [forkSched] using heq, ?_, hbal'⟩
  intro k
  have hbd := okTrace_take_bound (max N 1) ext 0 hok (by omega) k
  rw [hmax] at hbd
  omega

/-- Witness for the amended claim C6: fan-out 1 on a two-job file. -/
theorem fork_outstanding_bounded_witness :
    1 ≤ 1 ∧ ∃ t, forkSched ⟨["a", "b"], true⟩ 1 = some t
      ∧ (∀ k, countSpawns (t.take k) ≤ countReaps (t.take k) + 1)
      ∧ countSpawns t = countReaps t :=
  ⟨le_refl 1, fork_outstanding_bounded ⟨["a", "b"], true⟩ 1 (le_refl 1)⟩

/-- Counterexample for claim C7: with fan-out 1 and a one-job file the
queue reaches the bound when job 0 is admitted, yet no wait precedes that
admission in the parent's event order — the code forks and pushes the
triggering job first and only then blocks (in fact, on the very child it
just admitted). -/
theorem fork_wait_order_counterexample : ¬ claimC7_as_stated ⟨["a"], true⟩ 1 := by
  intro h
  obtain ⟨q, hq, _⟩ :=
    h [FEvent.spawn 0, FEvent.reap] rfl 0 0 (by decide) (by decide)
  omega

/-- Claim C7 (amended): in the fork scheduler with fan-out `N ≥ 1`, whenever
an admission brings the outstanding-children count to the bound `N`, the
parent performs one blocking `wait` before admitting any subsequent job.
The wait is `wait(&(pid_queue.front()))` — POSIX wait-any, which completes
some child, not necessarily the oldest; the front (oldest) queue entry is
popped only as bookkeeping — so nothing stronger than the occurrence of a
wait is asserted about which child completes. -/
theorem fork_wait_blocks_before_next (f : JobFile) (N : Nat) (hN : 1 ≤ N) :
    ∃ t, forkSched f N = some t
      ∧ ∀ p1 p2 j1 j2, p1 < p2 → t[p1]? = some (FEvent.spawn j1) →
          t[p2]? = some (FEvent.spawn j2) → N ≤ outstandingAfter t (p1 + 1) →
          ∃ q, p1 < q ∧ q < p2 ∧ t[q]? = some FEvent.reap := by
  have hmax : max N 1 = N := Nat.max_eq_left hN
  obtain ⟨ext, heq, hok, hbal⟩ :=
    forkLoop_spec f N (f.lines.length + 1) 0 0 [] [] (by omega) (by simp)
  refine ⟨ext, by simpa [forkSched] using heq, ?_⟩
  apply reap_between ext N hN
  intro k
  have hbd := okTrace_take_bound (max N 1) ext 0 hok (by omega) k
  rw [hmax] at hbd
  omega

/-- Witness for the amended claim C7: fan-out 1 on a one-job file. -/
theorem fork_wait_blocks_before_next_witness :
    1 ≤ 1 ∧ ∃ t, forkSched ⟨["a"], false⟩ 1 = some t
      ∧ ∀ p1 p2 j1 j2, p1 < p2 → t[p1]? = some (FEvent.spawn j1) →
          t[p2]? = some (FEvent.spawn j2) → 1 ≤ outstandingAfter t (p1 + 1) →
          ∃ q, p1 < q ∧ q < p2 ∧ t[q]? = some FEvent.reap :=
  ⟨le_refl 1, fork_wait_blocks_before_next ⟨["a"], false⟩ 1 (le_refl 1)⟩

/-- Witness for claim C2: a trivial environment whose within-box predicate
always fails, and a one-pose pool holding the sentinel energy at index 0. -/
theorem refine_divergence_sentinel_excluded_witness :
    (([(⟨(), max_fl, ()⟩ : OutputType Unit Unit)].map fun o => o.e)[0]?
        = some max_fl)
    ∧ (((refine_structure unitRefineEnv () unitNC ⟨(), 0, ()⟩).nc.within
          (refine_structure unitRefineEnv () unitNC ⟨(), 0, ()⟩).m = false →
        (refine_structure unitRefineEnv () unitNC ⟨(), 0, ()⟩).out.e = max_fl)
      ∧ do_search_how_many 9 3 [(⟨(), max_fl, ()⟩ : OutputType Unit Unit)] ≤ 0) :=
  ⟨rfl, refine_divergence_sentinel_excluded unitRefineEnv () unitNC ⟨(), 0, ()⟩
    9 3 [⟨(), max_fl, ()⟩] 0 rfl⟩
